import Mathlib

/-!
Verification of the core algorithms of the `bigdata_team_proj` financial-analysis
assistant: the hybrid sparse/dense retrieval merge (`src/retrieval/hybrid_retriever.py`,
`src/retrieval/es_client.py`), the agent orchestration graph and its ReAct
tool-calling loop (`src/agent/workflow_graph.py`), the DART financial-statement
key-metric extraction (`src/data_ingestion/dart_parsers.py`), and the Naver news
deduplication (`src/data_ingestion/news_client.py`).

Modelling conventions:
* Python floats are modelled as rationals (`ℚ`); every score formula in the source
  is a direct arithmetic expression, reproduced verbatim.
* Python dicts appearing as records are modelled as structures; optional keys are
  `Option` fields.
* Python's stable `sorted`/`list.sort` is modelled by `List.insertionSort`, which is
  stable for the same total preorder and therefore produces the identical list.
* Python's lexicographic string comparison (by Unicode code point) is modelled by
  `charListLe` on the underlying character lists.
-/

/-- Python string comparison, `a <= b`: lexicographic by Unicode code point,
a proper prefix sorts first. -/
def charListLe : List Char → List Char → Bool
  | [], _ => true
  | _ :: _, [] => false
  | a :: as, b :: bs => if a = b then charListLe as bs else decide (a < b)

/-- Python string comparison `a <= b` on `String`. -/
def strLe (a b : String) : Bool := charListLe a.data b.data

/-- Python string comparison `a < b` on `String` (strict part of the total order). -/
def strLt (a b : String) : Bool := !(strLe b a)

/-- Python substring test `needle in hay`, on character lists: `hay` starts with
`needle`. -/
def startsWithChars : List Char → List Char → Bool
  | _, [] => true
  | [], _ :: _ => false
  | c :: cs, d :: ds => (c = d) && startsWithChars cs ds

/-- Python substring test `needle in hay`, on character lists: some suffix of `hay`
starts with `needle`. -/
def containsChars : List Char → List Char → Bool
  | [], needle => needle.isEmpty
  | hay@(_ :: t), needle => startsWithChars hay needle || containsChars t needle

/-- Python substring test `needle in hay` for strings. -/
def containsSubstr (hay needle : String) : Bool := containsChars hay.data needle.data

/- ### Hybrid retriever (`src/retrieval/hybrid_retriever.py`, `src/retrieval/es_client.py`) -/

/-- One Elasticsearch hit as returned by `ESClient.search` / `ESClient.knn_search`:
`{"score": h["_score"], "doc": h["_source"]}`.  The `_source` dict always carries a
`"text"` key here; its remaining keys are kept as `meta`. -/
structure Hit where
  score : ℚ
  text : String
  meta : List (String × String)
deriving Repr, DecidableEq, Inhabited

/-- The `RetrievedDoc` dataclass of `hybrid_retriever.py`. -/
structure RetrievedDoc where
  text : String
  metadata : List (String × String)
  hybrid_score : ℚ
  sparse_score : ℚ
  dense_score : ℚ
deriving Repr, DecidableEq, Inhabited

/-- The score looked up through
`dense_map = {d["doc"]["text"]: d for d in dense}` followed by
`dense_map.get(text, {}).get("score", 0.0)`: a Python dict comprehension keeps the
last entry for a repeated key, and a missing key yields `0.0`. -/
def denseScoreFor (dense : List Hit) (t : String) : ℚ :=
  match (dense.filter (fun d => d.text = t)).getLast? with
  | some d => d.score
  | none => 0

/-- The dense-only scoring used both for dense-only documents in the merge and for
the sparse-empty fallback: `hybrid = (1 - alpha) * dense_score`, `sparse_score = 0.0`. -/
def denseOnlyDoc (alpha : ℚ) (d : Hit) : RetrievedDoc :=
  { text := d.text
    metadata := d.meta
    hybrid_score := (1 - alpha) * d.score
    sparse_score := 0
    dense_score := d.score }

/-- The merged (pre-sort, pre-truncation) candidate list built by
`HybridRetriever.retrieve`: if sparse results exist, every sparse hit is scored
`alpha * sparse + (1 - alpha) * dense_or_zero` and dense hits whose text is not
among the sparse texts are appended with dense-only scoring; if the sparse list is
empty, all dense hits are returned with dense-only scoring. -/
def mergeResults (alpha : ℚ) (sparse dense : List Hit) : List RetrievedDoc :=
  if sparse.isEmpty then
    dense.map (denseOnlyDoc alpha)
  else
    (sparse.map (fun s =>
      { text := s.text
        metadata := s.meta
        hybrid_score := alpha * s.score + (1 - alpha) * denseScoreFor dense s.text
        sparse_score := s.score
        dense_score := denseScoreFor dense s.text }))
    ++ ((dense.filter (fun d => !(sparse.any (fun s => s.text = d.text)))).map
          (denseOnlyDoc alpha))

/-- Descending order on `hybrid_score`, the sort key of
`results.sort(key=lambda x: x.hybrid_score, reverse=True)`. -/
def scoreGe (a b : RetrievedDoc) : Prop := b.hybrid_score ≤ a.hybrid_score

instance : DecidableRel scoreGe := fun a b =>
  inferInstanceAs (Decidable (b.hybrid_score ≤ a.hybrid_score))

instance : IsTotal RetrievedDoc scoreGe :=
  ⟨fun a b => le_total b.hybrid_score a.hybrid_score⟩

instance : IsTrans RetrievedDoc scoreGe :=
  ⟨fun _ _ _ hab hbc => le_trans hbc hab⟩

/-- `HybridRetriever.retrieve` after the two backend calls: merge, stable sort by
descending `hybrid_score`, truncate to the first `k`. -/
def hybridRetrieve (alpha : ℚ) (k : ℕ) (sparse dense : List Hit) : List RetrievedDoc :=
  (List.insertionSort scoreGe (mergeResults alpha sparse dense)).take k

/-- `ESClient.search` (and `knn_search`): the Elasticsearch call either produces a
hit list or raises; the `except` branch logs a warning and returns `[]`, so every
backend failure is converted into an empty result list and no exception reaches the
caller. -/
def esSearch (backend : Except String (List Hit)) : List Hit :=
  match backend with
  | Except.ok hits => hits
  | Except.error _ => []

/- ### Agent orchestration graph (`src/agent/workflow_graph.py`) -/

/-- The fixed financial keyword list tested by `route_intent`. -/
def financialKeywords : List String := ["실적", "영업이익", "재무", "매출", "PER", "PBR"]

/-- Python truthiness of an optional string (`if company:`): `None` and the empty
string are falsy. -/
def pyTruthyStr : Option String → Bool
  | none => false
  | some s => !s.isEmpty

/-- The route classification performed by `route_intent`: a truthy company name
forces `"company"`; otherwise any financial keyword occurring in the question text
gives `"company"`; otherwise `"general"`. -/
def route_intent (question : String) (company : Option String) : String :=
  if pyTruthyStr company then "company"
  else if financialKeywords.any (fun kw => containsSubstr question kw) then "company"
  else "general"

/-- The nodes of the compiled workflow graph (`build_workflow`), plus a terminal
marker for `END`. -/
inductive Node where
  | route_intent
  | call_model
  | call_tools
  | generate_answer
  | finished
deriving DecidableEq, Repr

/-- The orchestrator state channels relevant to loop control.  `modelCalls` is a
ghost counter of executed `call_model` steps, present only to index the modelled
sequence of LLM responses; it is not part of the program state. -/
structure GraphState where
  node : Node
  iterations : ℕ
  modelCalls : ℕ
deriving DecidableEq, Repr

/-- One step of the compiled graph under LangGraph's update semantics: each node
receives a fresh dict read from the state channels and only the key/value pairs it
returns are merged back; keys it does not return keep their channel value.
`resp n` says whether the `n`-th LLM response contains tool calls.

* `route_intent` mutates and returns the full state dict, so its
  `state["iterations"] = 0` write is applied, and the graph edge sends it to
  `call_model`.
* `call_model` computes `state["iterations"] + 1` on its local copy but returns
  only `{"messages": [response]}`, so the `iterations` channel keeps its previous
  value.  The conditional edge `should_continue` then reads the channels: with
  `iterations >= 2` it forces `generate_answer`; otherwise it goes to `call_tools`
  exactly when the latest response carries tool calls.
* `call_tools` always transitions back to `call_model`.
* `generate_answer` transitions to `END`. -/
def stepLG (resp : ℕ → Bool) (s : GraphState) : GraphState :=
  match s.node with
  | Node.route_intent => { s with node := Node.call_model, iterations := 0 }
  | Node.call_model =>
      let next :=
        if 2 ≤ s.iterations then Node.generate_answer
        else if resp s.modelCalls then Node.call_tools else Node.generate_answer
      { node := next, iterations := s.iterations, modelCalls := s.modelCalls + 1 }
  | Node.call_tools => { s with node := Node.call_model }
  | Node.generate_answer => { s with node := Node.finished }
  | Node.finished => s

/-- The graph entry point: `START → route_intent`. -/
def initState : GraphState :=
  { node := Node.route_intent, iterations := 0, modelCalls := 0 }

/-- The state of the workflow run after `n` steps. -/
def runLG (resp : ℕ → Bool) : ℕ → GraphState
  | 0 => initState
  | n + 1 => stepLG resp (runLG resp n)

/-- One tool-call request extracted from the latest model response
(`tool_call["name"]`, `tool_call["args"]`, `tool_call["id"]`). -/
structure ToolCall where
  name : String
  args : List (String × String)
  id : String
deriving DecidableEq, Repr, Inhabited

/-- A `ToolMessage` appended to the message history by `call_tools`. -/
structure ToolMessage where
  content : String
  name : String
  tool_call_id : String
deriving DecidableEq, Repr, Inhabited

/-- The `try/except` body of `call_tools` for a single tool call, abstracted over
the tool execution `execTool` (argument injection, tool invocation and state
bookkeeping; `Except.error e` models a raised exception with text `str(e)`): on
success the appended message's content is `str(result)[:500]`, on an exception it
is `f"Error executing {tool_name}: {str(e)}"`, with the tool name and the call id
attached in both cases. -/
def toolResultMessage (execTool : ToolCall → Except String String) (tc : ToolCall) :
    ToolMessage :=
  match execTool tc with
  | Except.ok r => { content := r.take 500, name := tc.name, tool_call_id := tc.id }
  | Except.error e =>
      { content := "Error executing " ++ tc.name ++ ": " ++ e
        name := tc.name
        tool_call_id := tc.id }

/-- The `for tool_call in last_message.tool_calls` loop of `call_tools`: one
`ToolMessage` is produced per requested call, in order, exceptions included. -/
def call_tools (execTool : ToolCall → Except String String) :
    List ToolCall → List ToolMessage
  | [] => []
  | tc :: rest => toolResultMessage execTool tc :: call_tools execTool rest

/- ### DART financial-statement parsing (`src/data_ingestion/dart_parsers.py`) -/

/-- Digits of a decimal literal to a natural number. -/
def digitsToNat (cs : List Char) : ℕ :=
  cs.foldl (fun acc c => acc * 10 + (c.toNat - '0'.toNat)) 0

/-- Truncating parse of an unsigned decimal literal `[digits][.digits]`, modelling
`int(float(s))` on the plain decimal notation DART amounts use (the fractional
part is dropped; exotic float syntax such as exponents is out of scope). -/
def parseDecimalChars (cs : List Char) : Option ℕ :=
  let intPart := cs.takeWhile (fun c => c.isDigit)
  let rest := cs.dropWhile (fun c => c.isDigit)
  match rest with
  | [] => if intPart.isEmpty then none else some (digitsToNat intPart)
  | '.' :: frac =>
      if frac.all (fun c => c.isDigit) && (!intPart.isEmpty || !frac.isEmpty)
      then some (digitsToNat intPart)
      else none
  | _ => none

/-- Signed truncating decimal parse; `int(float(s))` truncates toward zero. -/
def parseSignedDecimal (s : String) : Option ℤ :=
  match s.data with
  | '-' :: rest => (parseDecimalChars rest).map (fun n => -(n : ℤ))
  | '+' :: rest => (parseDecimalChars rest).map (fun n => (n : ℤ))
  | cs => (parseDecimalChars cs).map (fun n => (n : ℤ))

/-- Removal of every comma, modelling `s.replace(",", "")`. -/
def removeCommas (s : String) : String :=
  String.mk (s.data.filter (fun c => c ≠ ','))

/-- Leading and trailing whitespace removal, modelling Python's `.strip()`. -/
def pyStrip (cs : List Char) : List Char :=
  ((cs.dropWhile Char.isWhitespace).reverse.dropWhile Char.isWhitespace).reverse

/-- `_parse_int`: `str(amount).replace(",", "").strip()`; the sentinel strings
`""`, `"-"` and `"NaN"` yield `None`; otherwise `int(float(s))`, with `None` on a
parse failure. -/
def _parse_int (amount : Option String) : Option ℤ :=
  match amount with
  | none => none
  | some a =>
      let s := String.mk (pyStrip (removeCommas a).data)
      if s = "" ∨ s = "-" ∨ s = "NaN" then none
      else parseSignedDecimal s

/-- One raw row of the DART `fnlttSinglAcntAll` response, restricted to the keys
`extract_key_metrics` reads. -/
structure Row where
  account_nm : Option String
  thstrm_amount : Option String
  frmtrm_amount : Option String
  bfefrmtrm_amount : Option String
deriving DecidableEq, Repr, Inhabited

/-- Current / prior / prior-prior period amounts of one summary entry. -/
structure PeriodAmounts where
  th : Option ℤ
  fr : Option ℤ
  bf : Option ℤ
deriving DecidableEq, Repr, Inhabited

/-- The summary dict returned by `extract_key_metrics`. -/
structure KeyMetrics where
  assets : PeriodAmounts
  liabilities : PeriodAmounts
  equity : PeriodAmounts
  revenue : PeriodAmounts
  operating_income : PeriodAmounts
  net_income : PeriodAmounts
deriving DecidableEq, Repr, Inhabited

/-- The six summary fields. -/
inductive MetricField where
  | assets
  | liabilities
  | equity
  | revenue
  | operating_income
  | net_income
deriving DecidableEq, Repr

/-- Field accessor on the summary. -/
def getMetric (m : KeyMetrics) : MetricField → PeriodAmounts
  | MetricField.assets => m.assets
  | MetricField.liabilities => m.liabilities
  | MetricField.equity => m.equity
  | MetricField.revenue => m.revenue
  | MetricField.operating_income => m.operating_income
  | MetricField.net_income => m.net_income

/-- Field update on the summary. -/
def setMetric (m : KeyMetrics) (f : MetricField) (v : PeriodAmounts) : KeyMetrics :=
  match f with
  | MetricField.assets => { m with assets := v }
  | MetricField.liabilities => { m with liabilities := v }
  | MetricField.equity => { m with equity := v }
  | MetricField.revenue => { m with revenue := v }
  | MetricField.operating_income => { m with operating_income := v }
  | MetricField.net_income => { m with net_income := v }

/-- Removal of every space character, modelling `account_nm.replace(" ", "")`. -/
def stripSpaces (s : String) : String :=
  String.mk (s.data.filter (fun c => c ≠ ' '))

/-- The summary field selected by a row's account name, following the `if/elif`
chain of `extract_key_metrics` over `(row.get("account_nm") or "").replace(" ", "")`
(the first matching branch wins). -/
def rowField (row : Row) : Option MetricField :=
  let nm := stripSpaces (row.account_nm.getD "")
  if containsSubstr nm "자산총계" then some MetricField.assets
  else if containsSubstr nm "부채총계" then some MetricField.liabilities
  else if containsSubstr nm "자본총계" then some MetricField.equity
  else if containsSubstr nm "매출액" || containsSubstr nm "수익(매출액)" then
    some MetricField.revenue
  else if containsSubstr nm "영업이익" then some MetricField.operating_income
  else if containsSubstr nm "당기순이익" then some MetricField.net_income
  else none

/-- The three period amounts parsed from one row
(`thstrm_amount` / `frmtrm_amount` / `bfefrmtrm_amount`). -/
def rowAmounts (row : Row) : PeriodAmounts :=
  { th := _parse_int row.thstrm_amount
    fr := _parse_int row.frmtrm_amount
    bf := _parse_int row.bfefrmtrm_amount }

/-- Processing of one row inside the `for row in rows` loop: the selected field is
populated with the row's three period amounts only when the field is still
unpopulated (`summary[...]["th"] is None`) and the row's current-period amount
parses (`th is not None`); in every other case the summary is unchanged. -/
def processRow (summary : KeyMetrics) (row : Row) : KeyMetrics :=
  match rowField row with
  | none => summary
  | some f =>
      if (getMetric summary f).th = none ∧ (rowAmounts row).th ≠ none
      then setMetric summary f (rowAmounts row)
      else summary

/-- The all-`None` initial summary. -/
def initMetrics : KeyMetrics :=
  { assets := ⟨none, none, none⟩
    liabilities := ⟨none, none, none⟩
    equity := ⟨none, none, none⟩
    revenue := ⟨none, none, none⟩
    operating_income := ⟨none, none, none⟩
    net_income := ⟨none, none, none⟩ }

/-- `extract_key_metrics`: fold the rows over the all-`None` summary. -/
def extract_key_metrics (rows : List Row) : KeyMetrics :=
  rows.foldl processRow initMetrics
/- ### Naver news deduplication (`src/data_ingestion/news_client.py`) -/

/-- One raw news item from the Naver search response, restricted to the keys the
deduplication reads. -/
structure RawItem where
  title : Option String
  originallink : Option String
  link : Option String
  description : Option String
  pubDate : Option String
deriving DecidableEq, Repr, Inhabited

/-- Scanner for `re.sub(r"<[^>]+>", " ", text)`: starting at a `<`, the regex
consumes one or more non-`>` characters (newlines and further `<` included) up to
the first `>`, and the whole span is replaced by one space; a `<` with no matching
`>` before the end of input stays literal (the buffered characters contain no `>`,
so none of them can start a match either), as does an immediately closed `<>`.
The second argument buffers, in reverse, the characters read since the pending
`<`. -/
def removeTagsAux : List Char → Option (List Char) → List Char
  | [], none => []
  | [], some buf => '<' :: buf.reverse
  | c :: rest, none =>
      if c = '<' then removeTagsAux rest (some [])
      else c :: removeTagsAux rest none
  | c :: rest, some buf =>
      if c = '>' then
        if buf.isEmpty then '<' :: '>' :: removeTagsAux rest none
        else ' ' :: removeTagsAux rest none
      else removeTagsAux rest (some (c :: buf))

/-- `re.sub(r"<[^>]+>", " ", text)` on a character list. -/
def removeTags (cs : List Char) : List Char := removeTagsAux cs none

/-- Modelled subset of `html.unescape`: the common named and numeric entities
that occur in the Naver news payloads (`&amp;` `&lt;` `&gt;` `&quot;` `&apos;`
`&#39;`). -/
def unescapeEntities : List Char → List Char
  | '&' :: 'a' :: 'm' :: 'p' :: ';' :: rest => '&' :: unescapeEntities rest
  | '&' :: 'l' :: 't' :: ';' :: rest => '<' :: unescapeEntities rest
  | '&' :: 'g' :: 't' :: ';' :: rest => '>' :: unescapeEntities rest
  | '&' :: 'q' :: 'u' :: 'o' :: 't' :: ';' :: rest =>
      Char.ofNat 34 :: unescapeEntities rest
  | '&' :: 'a' :: 'p' :: 'o' :: 's' :: ';' :: rest =>
      Char.ofNat 39 :: unescapeEntities rest
  | '&' :: '#' :: '3' :: '9' :: ';' :: rest =>
      Char.ofNat 39 :: unescapeEntities rest
  | c :: rest => c :: unescapeEntities rest
  | [] => []

/-- `re.sub(r"\s+", " ", s)`: every maximal whitespace run becomes one space.  The
Boolean flag records whether the previous character belonged to a run. -/
def collapseWsAux : Bool → List Char → List Char
  | _, [] => []
  | prevWs, c :: rest =>
      if c.isWhitespace then
        if prevWs then collapseWsAux true rest
        else ' ' :: collapseWsAux true rest
      else c :: collapseWsAux false rest

/-- `_strip_html`: falsy input yields `""`; otherwise remove tags, unescape
entities, collapse whitespace runs and strip. -/
def _strip_html (text : Option String) : String :=
  match text with
  | none => ""
  | some t =>
      if t.isEmpty then ""
      else String.mk (pyStrip (collapseWsAux false (unescapeEntities (removeTags t.data))))

/-- Opening brackets of the class `[\(\[\{]`. -/
def isOpenBr (c : Char) : Bool := c = '(' || c = '[' || c = Char.ofNat 123

/-- Closing brackets of the class `[\)\]\}]` (any closer matches any opener). -/
def isCloseBr (c : Char) : Bool := c = ')' || c = ']' || c = Char.ofNat 125

/-- Scanner for `re.sub(r"[\(\[\{].*?[\)\]\}]", " ", t)`: from an opening bracket,
the non-greedy `.*?` runs to the nearest closing bracket of either kind, and the
span is replaced by one space; since `.` does not match a newline, an opener whose
nearest closer lies beyond a newline (or the end of input) has no match, and the
buffered characters — which contain no closer — are emitted literally.  The second
argument holds the pending opener and the buffered characters in reverse. -/
def removeBracketsAux : List Char → Option (Char × List Char) → List Char
  | [], none => []
  | [], some (o, buf) => o :: buf.reverse
  | c :: rest, none =>
      if isOpenBr c then removeBracketsAux rest (some (c, []))
      else c :: removeBracketsAux rest none
  | c :: rest, some (o, buf) =>
      if isCloseBr c then ' ' :: removeBracketsAux rest none
      else if c = '\n' then (o :: buf.reverse) ++ '\n' :: removeBracketsAux rest none
      else removeBracketsAux rest (some (o, c :: buf))

/-- `re.sub(r"[\(\[\{].*?[\)\]\}]", " ", t)` on a character list. -/
def removeBrackets (cs : List Char) : List Char := removeBracketsAux cs none

/-- Hangul syllables, the `가-힣` range. -/
def isHangul (c : Char) : Bool := 0xAC00 ≤ c.toNat && c.toNat ≤ 0xD7A3

/-- The character class `[\w\s가-힣]` as used on these titles: ASCII word
characters, Hangul syllables, whitespace (regex `\w` also covers further Unicode
letters, which do not occur in the fields this feeds). -/
def isWordOrWs (c : Char) : Bool :=
  c.isAlphanum || c = '_' || isHangul c || c.isWhitespace

/-- `_normalize_title`: strip HTML, blank out bracketed spans, replace characters
outside `[\w\s가-힣]` by spaces, collapse whitespace, strip and lowercase
(`.lower()` is ASCII lowering on the characters these titles contain). -/
def _normalize_title (title : Option String) : String :=
  let t := _strip_html title
  let t2 := removeBrackets t.data
  let t3 := t2.map (fun c => if isWordOrWs c then c else ' ')
  String.mk ((pyStrip (collapseWsAux false t3)).map Char.toLower)

/-- Scanner for the first `"://"` of a URL: characters before it form the scheme,
characters after it the rest; `none` when no `"://"` occurs.  The first argument
accumulates the scheme in reverse. -/
def schemeSplitAux : List Char → List Char → Option (List Char × List Char)
  | acc, ':' :: '/' :: '/' :: rest => some (acc.reverse, rest)
  | acc, c :: rest => schemeSplitAux (c :: acc) rest
  | _, [] => none

/-- Split of a URL at its first `"://"`. -/
def splitScheme (cs : List Char) : Option (List Char × List Char) :=
  schemeSplitAux [] cs

/-- The netloc: everything after `"://"` up to the first `/`, `?` or `#`. -/
def netlocOf (rest : List Char) : List Char :=
  rest.takeWhile (fun c => !(c = '/' || c = '?' || c = '#'))

/-- The path: from the first `/` after the netloc up to the first `?` or `#`. -/
def pathOf (rest : List Char) : List Char :=
  (rest.dropWhile (fun c => !(c = '/' || c = '?' || c = '#'))).takeWhile
    (fun c => !(c = '?' || c = '#'))

/-- `_canonical_url`, modelling `urllib.parse.urlparse` for the absolute
`scheme://netloc/path` URLs handled here: falsy input gives `None`; the scheme is
lowercased and defaults to `"https"` when absent; the netloc is lowercased and a
leading `"m."` is dropped; query and fragment are discarded and an empty path
becomes `"/"`; a URL with no `"://"` is all path (empty netloc), as with
`urlparse`. -/
def _canonical_url (u : Option String) : Option String :=
  match u with
  | none => none
  | some s =>
      if s.isEmpty then none
      else
        match splitScheme s.data with
        | some (schemeCs, rest) =>
            let scheme := if schemeCs.isEmpty then "https".data else schemeCs.map Char.toLower
            let netloc0 := (netlocOf rest).map Char.toLower
            let netloc :=
              if startsWithChars netloc0 ['m', '.'] then netloc0.drop 2 else netloc0
            let path0 := pathOf rest
            let path := if path0.isEmpty then ['/'] else path0
            some (String.mk (scheme ++ (':' :: '/' :: '/' :: netloc) ++ path))
        | none =>
            let path0 := s.data.takeWhile (fun c => !(c = '?' || c = '#'))
            let path := if path0.isEmpty then ['/'] else path0
            some (String.mk ("https".data ++ (':' :: '/' :: '/' :: path)))

/-- The deduplication key of `search_dedup`:
`canon = _canonical_url(originallink) or _canonical_url(link)`, else the
`"title::"`-prefixed normalized title (`_canonical_url` never returns an empty
string, so Python's falsy `or`-chain is the `Option` fallback). -/
def dedupKey (it : RawItem) : String :=
  match _canonical_url it.originallink with
  | some c => c
  | none =>
      match _canonical_url it.link with
      | some c => c
      | none => "title::" ++ _normalize_title it.title

/-- `str(it.get("pubDate", ""))`, the sort key of `_pick_latest`. -/
def pubDateStr (it : RawItem) : String := it.pubDate.getD ""

/-- Descending order on the raw publication-date string: the comparison
`sorted(items, key=..., reverse=True)` performs is Python's lexicographic string
comparison, not a parsed-date comparison. -/
def pubGe (a b : RawItem) : Prop := strLe (pubDateStr b) (pubDateStr a) = true

instance : DecidableRel pubGe := fun a b =>
  inferInstanceAs (Decidable (strLe (pubDateStr b) (pubDateStr a) = true))

/-- `_pick_latest`: first element of the stable descending sort by the raw
`pubDate` string (the source indexes `[0]`, so it is only applied to the non-empty
duplicate groups). -/
def _pick_latest (items : List RawItem) : RawItem :=
  (List.insertionSort pubGe items).headD default

/-- `buckets.setdefault(key, []).append(it)` on an insertion-ordered association
list, the model of the Python dict of duplicate groups. -/
def addToBuckets (buckets : List (String × List RawItem)) (key : String)
    (it : RawItem) : List (String × List RawItem) :=
  match buckets with
  | [] => [(key, [it])]
  | (k, g) :: rest =>
      if k = key then (k, g ++ [it]) :: rest
      else (k, g) :: addToBuckets rest key it

/-- The grouping loop of `search_dedup`: every item is appended to the bucket of
its deduplication key, buckets appearing in first-seen key order. -/
def buildBuckets (items : List RawItem) : List (String × List RawItem) :=
  items.foldl (fun bs it => addToBuckets bs (dedupKey it) it) []

/-- A deduplicated item: the original raw item with the three convenience fields
(`title_norm`, `description_clean`, `canonical_url`) the final loop of
`search_dedup` adds. -/
structure NewsItem where
  item : RawItem
  title_norm : String
  description_clean : String
  canonical_url : Option String
deriving DecidableEq, Repr

/-- The convenience-field enrichment applied to each surviving item. -/
def withUIFields (it : RawItem) : NewsItem :=
  { item := it
    title_norm := _normalize_title it.title
    description_clean := _strip_html it.description
    canonical_url :=
      match _canonical_url it.originallink with
      | some c => some c
      | none => _canonical_url it.link }

/-- The `deduped` list of `search_dedup`: the latest item of every duplicate
group, in first-seen key order. -/
def dedupedOf (items : List RawItem) : List RawItem :=
  (buildBuckets items).map (fun kg => _pick_latest kg.2)

/-- The optional re-sort of `search_dedup`: descending `pubDate` string when
`sort == "date"`, original bucket order otherwise. -/
def orderedDeduped (items : List RawItem) (sort : String) : List RawItem :=
  if sort = "date" then List.insertionSort pubGe (dedupedOf items) else dedupedOf items

/-- `search_dedup` after the raw search call, taking the raw item list and the
`sort` mode: empty input short-circuits to `[]`; otherwise group by deduplication
key, keep the latest item of each group, re-sort by descending `pubDate` string
when `sort == "date"` (original order otherwise), and add the convenience
fields. -/
def search_dedup (items : List RawItem) (sort : String) : List NewsItem :=
  if items.isEmpty then []
  else (orderedDeduped items sort).map withUIFields

/-- Invariant of the grouping loop of `search_dedup`, relating the buckets to the
already-processed prefix of the item list: every bucket is non-empty, holds only
processed items carrying its key, holds all processed items carrying its key,
every processed item's key owns a bucket, the keys are pairwise distinct, and
there are no more buckets than processed items. -/
def BucketsInv (processed : List RawItem) (bs : List (String × List RawItem)) : Prop :=
  (∀ k g, (k, g) ∈ bs → g ≠ [])
  ∧ (∀ k g, (k, g) ∈ bs → ∀ x ∈ g, x ∈ processed ∧ dedupKey x = k)
  ∧ (∀ k g, (k, g) ∈ bs → ∀ j ∈ processed, dedupKey j = k → j ∈ g)
  ∧ (∀ j ∈ processed, ∃ g, (dedupKey j, g) ∈ bs)
  ∧ (bs.map Prod.fst).Nodup
  ∧ bs.length ≤ processed.length
theorem charListLe_total : ∀ a b : List Char, charListLe a b = true ∨ charListLe b a = true := by
  intro a
  induction a with
  | nil => intro b; left; rfl
  | cons x xs ih =>
    intro b
    cases b with
    | nil => right; rfl
    | cons y ys =>
      by_cases hxy : x = y
      · subst hxy
        rcases ih ys with h | h
        · left; simpa [charListLe] using h
        · right; simpa [charListLe] using h
      · rcases lt_or_gt_of_ne hxy with h | h
        · left; simp [charListLe, hxy, h]
        · right; simp [charListLe, Ne.symm hxy, h]

theorem charListLe_trans :
    ∀ a b c : List Char, charListLe a b = true → charListLe b c = true →
      charListLe a c = true := by
  intro a
  induction a with
  | nil => intro b c _ _; rfl
  | cons x xs ih =>
    intro b c hab hbc
    cases b with
    | nil => simp [charListLe] at hab
    | cons y ys =>
      cases c with
      | nil => simp [charListLe] at hbc
      | cons z zs =>
        by_cases hxy : x = y <;> by_cases hyz : y = z
        · subst hxy; subst hyz
          simp only [charListLe, if_pos rfl] at hab hbc ⊢
          exact ih ys zs hab hbc
        · subst hxy
          simp only [charListLe, if_pos rfl, if_neg hyz, decide_eq_true_eq] at hbc ⊢
          simp [charListLe, hyz, hbc]
        · subst hyz
          simp only [charListLe, if_neg hxy, decide_eq_true_eq] at hab
          simp [charListLe, hxy, hab]
        · simp only [charListLe, if_neg hxy, decide_eq_true_eq] at hab
          simp only [charListLe, if_neg hyz, decide_eq_true_eq] at hbc
          have hxz : x < z := lt_trans hab hbc
          simp [charListLe, ne_of_lt hxz, hxz]

theorem charListLe_of_not : ∀ a b : List Char, charListLe a b = false → charListLe b a = true := by
  intro a b h
  rcases charListLe_total a b with h' | h'
  · rw [h] at h'; cases h'
  · exact h'

/-- C2: in the merged candidate set, every sparse result yields a document scored
`alpha * sparse_score + (1 - alpha) * dense_score`, where the dense score defaults
to `0` when no dense hit shares the text; every dense hit whose text is absent from
the sparse results yields a document scored `(1 - alpha) * dense_score` with
`sparse_score = 0`; and every merged document satisfies the linear-combination
formula, with `sparse_score = 0` whenever its text is not a sparse text. -/
theorem hybrid_merge_scoring (alpha : ℚ) (sparse dense : List Hit) :
    (∀ s ∈ sparse,
      ({ text := s.text, metadata := s.meta,
         hybrid_score := alpha * s.score + (1 - alpha) * denseScoreFor dense s.text,
         sparse_score := s.score, dense_score := denseScoreFor dense s.text } : RetrievedDoc)
        ∈ mergeResults alpha sparse dense)
  ∧ (∀ t : String, (∀ d ∈ dense, d.text ≠ t) → denseScoreFor dense t = 0)
  ∧ (∀ d ∈ dense, (∀ s ∈ sparse, s.text ≠ d.text) →
      denseOnlyDoc alpha d ∈ mergeResults alpha sparse dense)
  ∧ (∀ r ∈ mergeResults alpha sparse dense,
      r.hybrid_score = alpha * r.sparse_score + (1 - alpha) * r.dense_score
    ∧ ((∀ s ∈ sparse, s.text ≠ r.text) → r.sparse_score = 0)) := by
  refine ⟨?_, ?_, ?_, ?_⟩
  · intro s hs
    have hne : sparse ≠ [] := List.ne_nil_of_mem hs
    rw [mergeResults, if_neg (by simpa [List.isEmpty_iff] using hne)]
    exact List.mem_append_left _ (List.mem_map_of_mem _ hs)
  · intro t h
    have hfil : dense.filter (fun d => d.text = t) = [] := by
      rw [List.filter_eq_nil_iff]
      intro d hd
      simpa using h d hd
    simp [denseScoreFor, hfil]
  · intro d hd h
    by_cases hsp : sparse.isEmpty
    · rw [mergeResults, if_pos hsp]
      exact List.mem_map_of_mem _ hd
    · rw [mergeResults, if_neg hsp]
      refine List.mem_append_right _ (List.mem_map_of_mem _ ?_)
      refine List.mem_filter.mpr ⟨hd, ?_⟩
      simp only [Bool.not_eq_true', List.any_eq_false, decide_eq_true_eq]
      intro s hs
      exact h s hs
  · intro r hr
    by_cases hsp : sparse.isEmpty
    · rw [mergeResults, if_pos hsp] at hr
      obtain ⟨d, _, rfl⟩ := List.mem_map.mp hr
      exact ⟨by simp [denseOnlyDoc], fun _ => rfl⟩
    · rw [mergeResults, if_neg hsp] at hr
      rcases List.mem_append.mp hr with hl | hrr
      · obtain ⟨s, hs, rfl⟩ := List.mem_map.mp hl
        refine ⟨rfl, fun habs => ?_⟩
        exact absurd rfl (habs s hs)
      · obtain ⟨d, hd, rfl⟩ := List.mem_map.mp hrr
        exact ⟨by simp [denseOnlyDoc], fun _ => rfl⟩

/-- C3: the retriever's output is sorted by descending `hybrid_score` and contains
at most `k` documents, for every weighting, every `k` and every pair of backend
result sets. -/
theorem hybrid_retrieve_sorted_topk (alpha : ℚ) (k : ℕ) (sparse dense : List Hit) :
    List.Pairwise (fun a b => b.hybrid_score ≤ a.hybrid_score)
      (hybridRetrieve alpha k sparse dense)
  ∧ (hybridRetrieve alpha k sparse dense).length ≤ k := by
  constructor
  · have hs : List.Sorted scoreGe
        (List.insertionSort scoreGe (mergeResults alpha sparse dense)) :=
      List.sorted_insertionSort scoreGe _
    exact List.Pairwise.sublist (List.take_sublist _ _) hs
  · exact List.length_take_le _ _

/-- C5: a sparse-backend failure is converted by the ES adapter into an empty hit
list (no exception escapes), and with an empty sparse list the retriever's output
is exactly the dense-only scoring path for every `k`: every returned document has
`sparse_score = 0` and `hybrid_score = (1 - alpha) * dense_score` and comes from a
dense hit. -/
theorem sparse_failure_dense_only (err : String) (alpha : ℚ) (k : ℕ) (dense : List Hit) :
    esSearch (Except.error err) = []
  ∧ hybridRetrieve alpha k (esSearch (Except.error err)) dense
      = (List.insertionSort scoreGe (dense.map (denseOnlyDoc alpha))).take k
  ∧ (∀ r ∈ hybridRetrieve alpha k [] dense,
      r.sparse_score = 0
    ∧ r.hybrid_score = (1 - alpha) * r.dense_score
    ∧ ∃ d ∈ dense, r = denseOnlyDoc alpha d) := by
  refine ⟨rfl, rfl, ?_⟩
  intro r hr
  have h1 : r ∈ List.insertionSort scoreGe (mergeResults alpha [] dense) :=
    List.mem_of_mem_take hr
  have h2 : r ∈ mergeResults alpha [] dense :=
    (List.perm_insertionSort scoreGe _).mem_iff.mp h1
  have h3 : r ∈ List.map (denseOnlyDoc alpha) dense := by
    simpa [mergeResults] using h2
  obtain ⟨d, hd, rfl⟩ := List.mem_map.mp h3
  exact ⟨rfl, rfl, d, hd, rfl⟩

theorem charListLe_refl : ∀ a : List Char, charListLe a a = true := by
  intro a
  induction a with
  | nil => rfl
  | cons x xs ih => simpa [charListLe] using ih

/-- C4: the routing step is a pure three-way classification: a question with a
non-empty company name routes to `"company"` regardless of keywords; with no
(or an empty) company name, a question containing at least one of the fixed
financial keywords routes to `"company"`, and one containing none of them routes
to `"general"`. -/
theorem route_intent_three_way (q : String) (c : String) (company : Option String) :
    (company = some c → c ≠ "" → route_intent q company = "company")
  ∧ ((company = none ∨ company = some "") →
      ((∃ kw ∈ financialKeywords, containsSubstr q kw = true) →
          route_intent q company = "company")
    ∧ ((∀ kw ∈ financialKeywords, containsSubstr q kw = false) →
          route_intent q company = "general")) := by
  constructor
  · rintro rfl hc
    have hne : c.isEmpty = false := by
      cases hE : c.isEmpty
      · rfl
      · exact absurd ((String.isEmpty_iff c).mp hE) hc
    simp [route_intent, pyTruthyStr, hne]
  · intro hc
    have hfalse : pyTruthyStr company = false := by
      rcases hc with rfl | rfl
      · rfl
      · rfl
    constructor
    · rintro ⟨kw, hkw, hq⟩
      have hany : financialKeywords.any (fun kw => containsSubstr q kw) = true :=
        List.any_eq_true.mpr ⟨kw, hkw, hq⟩
      simp [route_intent, hfalse, hany]
    · intro hall
      have hany : financialKeywords.any (fun kw => containsSubstr q kw) = false := by
        rw [List.any_eq_false]
        intro kw hkw
        simp [hall kw hkw]
      simp [route_intent, hfalse, hany]

theorem route_intent_three_way_witness :
    route_intent "주가 어때" (some "삼성전자") = "company"
  ∧ route_intent "삼성전자 실적 알려줘" none = "company"
  ∧ route_intent "오늘 날씨 알려줘" none = "general" := by
  obtain ⟨h1, -⟩ := route_intent_three_way "주가 어때" "삼성전자" (some "삼성전자")
  obtain ⟨-, h2⟩ := route_intent_three_way "삼성전자 실적 알려줘" "" none
  obtain ⟨-, h3⟩ := route_intent_three_way "오늘 날씨 알려줘" "" none
  exact ⟨h1 rfl (by decide),
         (h2 (Or.inl rfl)).1 ⟨"실적", by decide, by decide⟩,
         (h3 (Or.inl rfl)).2 (by decide)⟩

/-- C1 ("exactly 2 `call_model` iterations, never more") is refuted by the code:
`call_model` computes `state["iterations"] + 1` on its local copy of the state but
returns only `{"messages": [response]}`, so under the framework's merge semantics
the `iterations` channel keeps the value `0` written by `route_intent`;
`should_continue`'s cap check `iterations >= 2` therefore never fires, and with a
model that always requests tool calls the run never transitions to
`generate_answer`, at any number of steps. -/
theorem call_model_iteration_update_lost (n : ℕ) :
    (runLG (fun _ => true) n).iterations = 0
  ∧ (runLG (fun _ => true) n).node ≠ Node.generate_answer := by
  have key : ∀ m : ℕ, (runLG (fun _ => true) m).iterations = 0
      ∧ ((runLG (fun _ => true) m).node = Node.route_intent
        ∨ (runLG (fun _ => true) m).node = Node.call_model
        ∨ (runLG (fun _ => true) m).node = Node.call_tools) := by
    intro m
    induction m with
    | zero => exact ⟨rfl, Or.inl rfl⟩
    | succ j ih =>
      obtain ⟨hit, hnode⟩ := ih
      rcases hnode with h | h | h
      · exact ⟨by simp [runLG, stepLG, h, hit], Or.inr (Or.inl (by simp [runLG, stepLG, h]))⟩
      · refine ⟨by simp [runLG, stepLG, h, hit], Or.inr (Or.inr ?_)⟩
        simp [runLG, stepLG, h, hit]
      · exact ⟨by simp [runLG, stepLG, h, hit], Or.inr (Or.inl (by simp [runLG, stepLG, h]))⟩
  obtain ⟨hit, hnode⟩ := key n
  refine ⟨hit, ?_⟩
  rcases hnode with h | h | h <;> simp [h]

/-- C8: `call_tools` emits exactly one tool message per requested call, in order;
a successful call's message carries the stringified result truncated to the fixed
500-character budget, an exception raised by a call is caught for that call alone
and becomes its error-text message (so the remaining calls are still processed),
and the graph edge after `call_tools` unconditionally returns to `call_model`. -/
theorem call_tools_one_message_per_call (execTool : ToolCall → Except String String)
    (tcs : List ToolCall) :
    (call_tools execTool tcs).length = tcs.length
  ∧ (∀ i : ℕ, (call_tools execTool tcs)[i]? = (tcs[i]?).map (toolResultMessage execTool))
  ∧ (∀ tc r, execTool tc = Except.ok r →
      toolResultMessage execTool tc =
        { content := r.take 500, name := tc.name, tool_call_id := tc.id })
  ∧ (∀ tc e, execTool tc = Except.error e →
      toolResultMessage execTool tc =
        { content := "Error executing " ++ tc.name ++ ": " ++ e
          name := tc.name
          tool_call_id := tc.id })
  ∧ (∀ (resp : ℕ → Bool) (s : GraphState), s.node = Node.call_tools →
      (stepLG resp s).node = Node.call_model) := by
  refine ⟨?_, ?_, ?_, ?_, ?_⟩
  · induction tcs with
    | nil => rfl
    | cons tc rest ih => simp [call_tools, ih]
  · intro i
    induction tcs generalizing i with
    | nil => simp [call_tools]
    | cons tc rest ih =>
      cases i with
      | zero => simp [call_tools]
      | succ j => simpa [call_tools] using ih j
  · intro tc r h
    simp [toolResultMessage, h]
  · intro tc e h
    simp [toolResultMessage, h]
  · intro resp s h
    simp [stepLG, h]

theorem call_tools_one_message_per_call_witness :
    (call_tools
        (fun tc => if tc.name = "search_documents" then Except.ok "docs" else Except.error "boom")
        [⟨"search_documents", [], "1"⟩, ⟨"get_financial_data", [], "2"⟩]).length = 2
  ∧ (call_tools
        (fun tc => if tc.name = "search_documents" then Except.ok "docs" else Except.error "boom")
        [⟨"search_documents", [], "1"⟩, ⟨"get_financial_data", [], "2"⟩])[1]?
      = some (toolResultMessage
          (fun tc => if tc.name = "search_documents" then Except.ok "docs" else Except.error "boom")
          ⟨"get_financial_data", [], "2"⟩)
  ∧ toolResultMessage
        (fun tc => if tc.name = "search_documents" then Except.ok "docs" else Except.error "boom")
        ⟨"search_documents", [], "1"⟩
      = { content := String.take "docs" 500, name := "search_documents", tool_call_id := "1" }
  ∧ toolResultMessage
        (fun tc => if tc.name = "search_documents" then Except.ok "docs" else Except.error "boom")
        ⟨"get_financial_data", [], "2"⟩
      = { content := "Error executing " ++ "get_financial_data" ++ ": " ++ "boom"
          name := "get_financial_data"
          tool_call_id := "2" }
  ∧ (stepLG (fun _ => true)
        { node := Node.call_tools, iterations := 0, modelCalls := 1 }).node
      = Node.call_model := by
  obtain ⟨h1, h2, h3, h4, h5⟩ := call_tools_one_message_per_call
    (fun tc => if tc.name = "search_documents" then Except.ok "docs" else Except.error "boom")
    [⟨"search_documents", [], "1"⟩, ⟨"get_financial_data", [], "2"⟩]
  refine ⟨h1, ?_, h3 ⟨"search_documents", [], "1"⟩ "docs" (by simp),
          h4 ⟨"get_financial_data", [], "2"⟩ "boom" (by simp), h5 (fun _ => true) _ rfl⟩
  simpa using h2 1

theorem hybrid_merge_scoring_witness :
    ({ text := "a", metadata := [],
       hybrid_score := (2 : ℚ) * 5 + (1 - (2 : ℚ)) * denseScoreFor [⟨3, "b", []⟩] "a",
       sparse_score := 5, dense_score := denseScoreFor [⟨3, "b", []⟩] "a" } : RetrievedDoc)
      ∈ mergeResults 2 [⟨5, "a", []⟩] [⟨3, "b", []⟩]
  ∧ denseScoreFor [⟨3, "b", []⟩] "a" = 0
  ∧ denseOnlyDoc 2 ⟨3, "b", []⟩ ∈ mergeResults 2 [⟨5, "a", []⟩] [⟨3, "b", []⟩]
  ∧ (denseOnlyDoc 2 ⟨3, "b", []⟩).hybrid_score
      = 2 * (denseOnlyDoc 2 ⟨3, "b", []⟩).sparse_score
        + (1 - 2) * (denseOnlyDoc 2 ⟨3, "b", []⟩).dense_score := by
  obtain ⟨h1, h2, h3, h4⟩ := hybrid_merge_scoring 2 [⟨5, "a", []⟩] [⟨3, "b", []⟩]
  refine ⟨h1 ⟨5, "a", []⟩ (by simp),
          h2 "a" (by intro d hd; simp at hd; subst hd; decide),
          h3 ⟨3, "b", []⟩ (by simp) (by intro s hs; simp at hs; subst hs; decide), ?_⟩
  exact (h4 _ (h3 ⟨3, "b", []⟩ (by simp)
    (by intro s hs; simp at hs; subst hs; decide))).1

theorem sparse_failure_dense_only_witness :
    esSearch (Except.error "boom") = []
  ∧ hybridRetrieve 2 1 (esSearch (Except.error "boom")) [⟨3, "b", []⟩]
      = (List.insertionSort scoreGe ([⟨3, "b", []⟩].map (denseOnlyDoc 2))).take 1
  ∧ (denseOnlyDoc 2 ⟨3, "b", []⟩).sparse_score = 0
  ∧ (denseOnlyDoc 2 ⟨3, "b", []⟩).hybrid_score
      = (1 - 2) * (denseOnlyDoc 2 ⟨3, "b", []⟩).dense_score
  ∧ ∃ d ∈ [(⟨3, "b", []⟩ : Hit)], denseOnlyDoc 2 ⟨3, "b", []⟩ = denseOnlyDoc 2 d := by
  obtain ⟨h1, h2, h3⟩ := sparse_failure_dense_only "boom" 2 1 [⟨3, "b", []⟩]
  have hmem : denseOnlyDoc 2 ⟨3, "b", []⟩ ∈ hybridRetrieve 2 1 [] [⟨3, "b", []⟩] := by
    show denseOnlyDoc 2 ⟨3, "b", []⟩ ∈ [denseOnlyDoc 2 ⟨3, "b", []⟩]
    exact List.mem_singleton_self _
  obtain ⟨ha, hb, hc⟩ := h3 _ hmem
  exact ⟨h1, h2, ha, hb, hc⟩

theorem getMetric_setMetric_eq (m : KeyMetrics) (f : MetricField) (v : PeriodAmounts) :
    getMetric (setMetric m f v) f = v := by
  cases f <;> rfl

theorem getMetric_setMetric_ne (m : KeyMetrics) (f g : MetricField) (v : PeriodAmounts)
    (h : f ≠ g) : getMetric (setMetric m g v) f = getMetric m f := by
  cases f <;> cases g <;> first | exact absurd rfl h | rfl

theorem processRow_preserves (s : KeyMetrics) (row : Row) (f : MetricField) (v : ℤ)
    (h : (getMetric s f).th = some v) :
    getMetric (processRow s row) f = getMetric s f := by
  cases hrf : rowField row with
  | none => simp [processRow, hrf]
  | some g =>
    simp only [processRow, hrf]
    split_ifs with hcond
    · have hgf : f ≠ g := by
        rintro rfl
        rw [h] at hcond
        exact absurd hcond.1 (by simp)
      exact getMetric_setMetric_ne _ _ _ _ hgf
    · rfl

theorem foldl_processRow_preserves (rows : List Row) (s : KeyMetrics) (f : MetricField)
    (v : ℤ) (h : (getMetric s f).th = some v) :
    getMetric (rows.foldl processRow s) f = getMetric s f := by
  induction rows generalizing s with
  | nil => rfl
  | cons row rest ih =>
    rw [List.foldl_cons]
    have hstep := processRow_preserves s row f v h
    have h' : (getMetric (processRow s row) f).th = some v := by rw [hstep]; exact h
    rw [ih (processRow s row) h', hstep]

theorem processRow_skip (s : KeyMetrics) (row : Row) (f : MetricField)
    (h : ¬(rowField row = some f ∧ (rowAmounts row).th ≠ none)) :
    getMetric (processRow s row) f = getMetric s f := by
  cases hrf : rowField row with
  | none => simp [processRow, hrf]
  | some g =>
    simp only [processRow, hrf]
    split_ifs with hcond
    · have hgf : f ≠ g := by
        rintro rfl
        exact h ⟨hrf, hcond.2⟩
      exact getMetric_setMetric_ne _ _ _ _ hgf
    · rfl

theorem foldl_processRow_skip (rows : List Row) (s : KeyMetrics) (f : MetricField)
    (h : ∀ r ∈ rows, ¬(rowField r = some f ∧ (rowAmounts r).th ≠ none)) :
    getMetric (rows.foldl processRow s) f = getMetric s f := by
  induction rows generalizing s with
  | nil => rfl
  | cons row rest ih =>
    rw [List.foldl_cons, ih (processRow s row) (fun r hr => h r (List.mem_cons_of_mem _ hr)),
        processRow_skip s row f (h row (List.mem_cons_self _ _))]

/-- C6: financial summary extraction is first-non-null-wins per field: a field that
is already populated is never overwritten by later rows, and when the first row
that both selects a field and has a parsable current-period amount is `r`, the
extracted field equals exactly `r`'s three period amounts — any later matching row
(with the same or a different amount) is ignored. -/
theorem extract_key_metrics_first_wins :
    (∀ (s : KeyMetrics) (rows : List Row) (f : MetricField) (v : ℤ),
      (getMetric s f).th = some v →
      getMetric (rows.foldl processRow s) f = getMetric s f)
  ∧ (∀ (pre : List Row) (r : Row) (post : List Row) (f : MetricField),
      rowField r = some f → (rowAmounts r).th ≠ none →
      (∀ r' ∈ pre, ¬(rowField r' = some f ∧ (rowAmounts r').th ≠ none)) →
      getMetric (extract_key_metrics (pre ++ r :: post)) f = rowAmounts r) := by
  constructor
  · exact fun s rows f v h => foldl_processRow_preserves rows s f v h
  · intro pre r post f hf hth hpre
    unfold extract_key_metrics
    rw [List.foldl_append, List.foldl_cons]
    have h2 : (getMetric (pre.foldl processRow initMetrics) f).th = none := by
      rw [foldl_processRow_skip pre initMetrics f hpre]
      cases f <;> rfl
    have h3 : processRow (pre.foldl processRow initMetrics) r
        = setMetric (pre.foldl processRow initMetrics) f (rowAmounts r) := by
      simp only [processRow, hf]
      rw [if_pos ⟨h2, hth⟩]
    rw [h3]
    obtain ⟨v, hv⟩ := Option.ne_none_iff_exists'.mp hth
    rw [foldl_processRow_preserves post _ f v (by rw [getMetric_setMetric_eq]; exact hv)]
    exact getMetric_setMetric_eq _ _ _

theorem extract_key_metrics_first_wins_witness :
    getMetric (extract_key_metrics
        [⟨some "자산총계", some "100", some "90", some "80"⟩,
         ⟨some "자산총계", some "200", some "190", some "180"⟩]) MetricField.assets
      = rowAmounts ⟨some "자산총계", some "100", some "90", some "80"⟩ := by
  have h := (extract_key_metrics_first_wins).2 []
    ⟨some "자산총계", some "100", some "90", some "80"⟩
    [⟨some "자산총계", some "200", some "190", some "180"⟩] MetricField.assets
    (by decide) (by decide) (by simp)
  simpa using h

theorem processRow_cases (s : KeyMetrics) (row : Row) (f : MetricField) :
    getMetric (processRow s row) f = getMetric s f
  ∨ (rowField row = some f ∧ getMetric (processRow s row) f = rowAmounts row
      ∧ (rowAmounts row).th ≠ none) := by
  cases hrf : rowField row with
  | none => exact Or.inl (by simp [processRow, hrf])
  | some g =>
    simp only [processRow, hrf]
    split_ifs with hcond
    · by_cases hfg : f = g
      · subst hfg
        exact Or.inr ⟨rfl, getMetric_setMetric_eq _ _ _, hcond.2⟩
      · exact Or.inl (getMetric_setMetric_ne _ _ _ _ hfg)
    · exact Or.inl rfl

theorem foldl_processRow_inv (rows : List Row) (s : KeyMetrics) (f : MetricField) :
    getMetric (rows.foldl processRow s) f = getMetric s f
  ∨ (∃ r ∈ rows, rowField r = some f ∧ getMetric (rows.foldl processRow s) f = rowAmounts r
      ∧ (rowAmounts r).th ≠ none) := by
  induction rows generalizing s with
  | nil => exact Or.inl rfl
  | cons row rest ih =>
    rw [List.foldl_cons]
    rcases ih (processRow s row) with h | ⟨r, hr, hf, heq, hth⟩
    · rcases processRow_cases s row f with h2 | ⟨hf, heq, hth⟩
      · exact Or.inl (by rw [h, h2])
      · exact Or.inr ⟨row, List.mem_cons_self _ _, hf, by rw [h, heq], hth⟩
    · exact Or.inr ⟨r, List.mem_cons_of_mem _ hr, hf, heq, hth⟩

/-- C9: in the extracted summary, a field whose current-period amount is `None` is
entirely `None` (prior and prior-prior periods included); a field whose
current-period amount is populated carries the three period amounts parsed from
one single input row, the row that selected it. -/
theorem extract_key_metrics_same_row (rows : List Row) (f : MetricField) :
    ((getMetric (extract_key_metrics rows) f).th = none →
      getMetric (extract_key_metrics rows) f = ⟨none, none, none⟩)
  ∧ (∀ v : ℤ, (getMetric (extract_key_metrics rows) f).th = some v →
      ∃ r ∈ rows, rowField r = some f ∧
        getMetric (extract_key_metrics rows) f = rowAmounts r) := by
  have hinit : getMetric initMetrics f = ⟨none, none, none⟩ := by cases f <;> rfl
  constructor
  · intro hth
    rcases foldl_processRow_inv rows initMetrics f with h | ⟨r, _, _, heq, hne⟩
    · exact h.trans hinit
    · exfalso
      apply hne
      rw [← heq]
      exact hth
  · intro v hv
    rcases foldl_processRow_inv rows initMetrics f with h | ⟨r, hr, hf, heq, _⟩
    · exfalso
      have : (getMetric initMetrics f).th = some v := by rw [← h]; exact hv
      rw [hinit] at this
      cases this
    · exact ⟨r, hr, hf, heq⟩

theorem extract_key_metrics_same_row_witness :
    getMetric (extract_key_metrics
        ([⟨some "매출액", some "50", none, some "30"⟩] : List Row)) MetricField.assets
      = ⟨none, none, none⟩
  ∧ ∃ r ∈ ([⟨some "매출액", some "50", none, some "30"⟩] : List Row),
      rowField r = some MetricField.revenue ∧
      getMetric (extract_key_metrics
          ([⟨some "매출액", some "50", none, some "30"⟩] : List Row)) MetricField.revenue
        = rowAmounts r :=
  ⟨(extract_key_metrics_same_row _ MetricField.assets).1 (by decide),
   (extract_key_metrics_same_row _ MetricField.revenue).2 50 (by decide)⟩

theorem pubGe_refl (a : RawItem) : pubGe a a :=
  charListLe_refl _

theorem pubGe_total (a b : RawItem) : pubGe a b ∨ pubGe b a :=
  charListLe_total (pubDateStr b).data (pubDateStr a).data

theorem pubGe_trans (a b c : RawItem) (hab : pubGe a b) (hbc : pubGe b c) : pubGe a c :=
  charListLe_trans _ _ _ hbc hab

theorem pick_latest_mem (g : List RawItem) (hg : g ≠ []) : _pick_latest g ∈ g := by
  cases hs : List.insertionSort pubGe g with
  | nil =>
    exfalso
    have hperm := List.perm_insertionSort pubGe g
    rw [hs] at hperm
    exact hg hperm.symm.eq_nil
  | cons a t =>
    have hp : _pick_latest g = a := by simp [_pick_latest, hs]
    rw [hp]
    have ha : a ∈ List.insertionSort pubGe g := by
      rw [hs]
      exact List.mem_cons_self _ _
    exact (List.perm_insertionSort pubGe g).mem_iff.mp ha

theorem pick_latest_ge (g : List RawItem) : ∀ j ∈ g, pubGe (_pick_latest g) j := by
  haveI : IsTotal RawItem pubGe := ⟨pubGe_total⟩
  haveI : IsTrans RawItem pubGe := ⟨pubGe_trans⟩
  intro j hj
  have hsorted := List.sorted_insertionSort pubGe g
  have hj' : j ∈ List.insertionSort pubGe g :=
    (List.perm_insertionSort pubGe g).mem_iff.mpr hj
  cases hs : List.insertionSort pubGe g with
  | nil =>
    rw [hs] at hj'
    cases hj'
  | cons a t =>
    have hp : _pick_latest g = a := by simp [_pick_latest, hs]
    rw [hp]
    rw [hs] at hj' hsorted
    rcases List.mem_cons.mp hj' with rfl | hjt
    · exact pubGe_refl j
    · exact (List.sorted_cons.mp hsorted).1 j hjt

theorem addToBuckets_mem_of_ne (bs : List (String × List RawItem)) (k : String)
    (it : RawItem) (k' : String) (g' : List RawItem)
    (h : (k', g') ∈ bs) (hne : k' ≠ k) : (k', g') ∈ addToBuckets bs k it := by
  induction bs with
  | nil => cases h
  | cons hd rest ih =>
    obtain ⟨k0, g0⟩ := hd
    by_cases hk0 : k0 = k
    · rw [addToBuckets, if_pos hk0]
      rcases List.mem_cons.mp h with heq | htail
      · exfalso
        apply hne
        have hkk : k' = k0 := congrArg Prod.fst heq
        rw [hkk, hk0]
      · exact List.mem_cons_of_mem _ htail
    · rw [addToBuckets, if_neg hk0]
      rcases List.mem_cons.mp h with heq | htail
      · rw [heq]
        exact List.mem_cons_self _ _
      · exact List.mem_cons_of_mem _ (ih htail)

theorem addToBuckets_self (bs : List (String × List RawItem)) (k : String) (it : RawItem)
    (hnd : (bs.map Prod.fst).Nodup) :
    (∀ g, (k, g) ∈ bs → (k, g ++ [it]) ∈ addToBuckets bs k it)
  ∧ ((∀ g, (k, g) ∉ bs) → (k, [it]) ∈ addToBuckets bs k it) := by
  induction bs with
  | nil =>
    exact ⟨fun g hg => absurd hg (List.not_mem_nil _), fun _ => List.mem_cons_self _ _⟩
  | cons hd rest ih =>
    obtain ⟨k0, g0⟩ := hd
    have hnd' : (rest.map Prod.fst).Nodup := (List.nodup_cons.mp hnd).2
    have hk0nin : k0 ∉ rest.map Prod.fst := (List.nodup_cons.mp hnd).1
    by_cases hk0 : k0 = k
    · constructor
      · intro g hg
        rw [addToBuckets, if_pos hk0]
        rcases List.mem_cons.mp hg with heq | htail
        · have h1 : g = g0 := ((Prod.mk.injEq _ _ _ _).mp heq.symm).2.symm
          rw [h1, hk0]
          exact List.mem_cons_self _ _
        · exfalso
          apply hk0nin
          rw [hk0]
          exact List.mem_map_of_mem Prod.fst htail
      · intro habs
        exfalso
        exact habs g0 (by rw [← hk0]; exact List.mem_cons_self _ _)
    · rw [addToBuckets, if_neg hk0]
      constructor
      · intro g hg
        rcases List.mem_cons.mp hg with heq | htail
        · exact absurd (Prod.mk.injEq _ _ _ _ |>.mp heq.symm).1 hk0
        · exact List.mem_cons_of_mem _ ((ih hnd').1 g htail)
      · intro habs
        refine List.mem_cons_of_mem _ ((ih hnd').2 ?_)
        intro g hg
        exact habs g (List.mem_cons_of_mem _ hg)

theorem addToBuckets_cases (bs : List (String × List RawItem)) (k : String) (it : RawItem)
    (hnd : (bs.map Prod.fst).Nodup) (k' : String) (g' : List RawItem)
    (h : (k', g') ∈ addToBuckets bs k it) :
    ((k', g') ∈ bs ∧ k' ≠ k)
  ∨ (∃ g, (k, g) ∈ bs ∧ k' = k ∧ g' = g ++ [it])
  ∨ (k' = k ∧ g' = [it] ∧ ∀ g, (k, g) ∉ bs) := by
  induction bs with
  | nil =>
    rcases List.mem_cons.mp h with heq | habs
    · obtain ⟨h1, h2⟩ := Prod.mk.injEq _ _ _ _ |>.mp heq
      exact Or.inr (Or.inr ⟨h1, h2, fun g => List.not_mem_nil _⟩)
    · cases habs
  | cons hd rest ih =>
    obtain ⟨k0, g0⟩ := hd
    have hnd' : (rest.map Prod.fst).Nodup := (List.nodup_cons.mp hnd).2
    have hk0nin : k0 ∉ rest.map Prod.fst := (List.nodup_cons.mp hnd).1
    by_cases hk0 : k0 = k
    · rw [addToBuckets, if_pos hk0] at h
      rcases List.mem_cons.mp h with heq | htail
      · obtain ⟨h1, h2⟩ := Prod.mk.injEq _ _ _ _ |>.mp heq
        refine Or.inr (Or.inl ⟨g0, ?_, h1.trans hk0, h2⟩)
        rw [hk0]
        exact List.mem_cons_self _ _
      · have hne : k' ≠ k := by
          intro heq
          apply hk0nin
          rw [hk0, ← heq]
          exact List.mem_map_of_mem Prod.fst htail
        exact Or.inl ⟨List.mem_cons_of_mem _ htail, hne⟩
    · rw [addToBuckets, if_neg hk0] at h
      rcases List.mem_cons.mp h with heq | htail
      · obtain ⟨h1, h2⟩ := Prod.mk.injEq _ _ _ _ |>.mp heq
        refine Or.inl ⟨?_, ?_⟩
        · rw [heq]
          exact List.mem_cons_self _ _
        · rw [h1]
          exact hk0
      · rcases ih hnd' htail with ⟨hin, hne⟩ | ⟨g, hg, hkk, hgg⟩ | ⟨hkk, hgg, hnone⟩
        · exact Or.inl ⟨List.mem_cons_of_mem _ hin, hne⟩
        · exact Or.inr (Or.inl ⟨g, List.mem_cons_of_mem _ hg, hkk, hgg⟩)
        · refine Or.inr (Or.inr ⟨hkk, hgg, ?_⟩)
          intro g hg
          rcases List.mem_cons.mp hg with heq2 | htail2
          · exact hk0 ((Prod.mk.injEq _ _ _ _).mp heq2.symm).1
          · exact hnone g htail2

theorem addToBuckets_keys (bs : List (String × List RawItem)) (k : String) (it : RawItem) :
    (addToBuckets bs k it).map Prod.fst =
      if k ∈ bs.map Prod.fst then bs.map Prod.fst else bs.map Prod.fst ++ [k] := by
  induction bs with
  | nil => simp [addToBuckets]
  | cons hd rest ih =>
    obtain ⟨k0, g0⟩ := hd
    by_cases hk0 : k0 = k
    · rw [addToBuckets, if_pos hk0]
      simp [hk0]
    · rw [addToBuckets, if_neg hk0]
      by_cases hmem : k ∈ rest.map Prod.fst
      · simp only [List.map_cons, ih, if_pos hmem]
        rw [if_pos (List.mem_cons_of_mem _ hmem)]
      · simp only [List.map_cons, ih, if_neg hmem]
        rw [if_neg ?_]
        · rfl
        · intro hin
          rcases List.mem_cons.mp hin with heq | htail
          · exact hk0 heq.symm
          · exact hmem htail

theorem addToBuckets_length_le (bs : List (String × List RawItem)) (k : String)
    (it : RawItem) : (addToBuckets bs k it).length ≤ bs.length + 1 := by
  induction bs with
  | nil => simp [addToBuckets]
  | cons hd rest ih =>
    obtain ⟨k0, g0⟩ := hd
    by_cases hk0 : k0 = k
    · rw [addToBuckets, if_pos hk0]
      simp
    · rw [addToBuckets, if_neg hk0]
      simpa using Nat.succ_le_succ ih

theorem bucketsInv_step (p : List RawItem) (bs : List (String × List RawItem))
    (it : RawItem) (hinv : BucketsInv p bs) :
    BucketsInv (p ++ [it]) (addToBuckets bs (dedupKey it) it) := by
  obtain ⟨h1, h2, h3, h4, h5, h6⟩ := hinv
  refine ⟨?_, ?_, ?_, ?_, ?_, ?_⟩
  · intro k g hkg
    rcases addToBuckets_cases bs _ it h5 k g hkg with ⟨hin, _⟩ | ⟨g0, _, _, rfl⟩ | ⟨_, rfl, _⟩
    · exact h1 k g hin
    · simp
    · simp
  · intro k g hkg x hx
    rcases addToBuckets_cases bs _ it h5 k g hkg with ⟨hin, _⟩ | ⟨g0, hg0, rfl, rfl⟩ |
      ⟨rfl, rfl, _⟩
    · obtain ⟨hxp, hxk⟩ := h2 k g hin x hx
      exact ⟨List.mem_append_left _ hxp, hxk⟩
    · rcases List.mem_append.mp hx with hxg | hxit
      · obtain ⟨hxp, hxk⟩ := h2 _ g0 hg0 x hxg
        exact ⟨List.mem_append_left _ hxp, hxk⟩
      · have hxeq : x = it := by simpa using hxit
        subst hxeq
        exact ⟨List.mem_append_right _ (List.mem_singleton_self _), rfl⟩
    · have hxeq : x = it := by simpa using hx
      subst hxeq
      exact ⟨List.mem_append_right _ (List.mem_singleton_self _), rfl⟩
  · intro k g hkg j hj hjk
    rcases addToBuckets_cases bs _ it h5 k g hkg with ⟨hin, hne⟩ | ⟨g0, hg0, rfl, rfl⟩ |
      ⟨rfl, rfl, hnone⟩
    · rcases List.mem_append.mp hj with hjp | hjit
      · exact h3 k g hin j hjp hjk
      · have hjeq : j = it := by simpa using hjit
        subst hjeq
        exact absurd hjk (Ne.symm hne)
    · rcases List.mem_append.mp hj with hjp | hjit
      · exact List.mem_append_left _ (h3 _ g0 hg0 j hjp hjk)
      · have hjeq : j = it := by simpa using hjit
        subst hjeq
        exact List.mem_append_right _ (List.mem_singleton_self _)
    · rcases List.mem_append.mp hj with hjp | hjit
      · exfalso
        obtain ⟨g0, hg0⟩ := h4 j hjp
        rw [hjk] at hg0
        exact hnone g0 hg0
      · have hjeq : j = it := by simpa using hjit
        subst hjeq
        exact List.mem_singleton_self _
  · intro j hj
    have hself := addToBuckets_self bs (dedupKey it) it h5
    rcases List.mem_append.mp hj with hjp | hjit
    · obtain ⟨g0, hg0⟩ := h4 j hjp
      by_cases hkey : dedupKey j = dedupKey it
      · rw [hkey] at hg0
        refine ⟨g0 ++ [it], ?_⟩
        rw [hkey]
        exact hself.1 g0 hg0
      · exact ⟨g0, addToBuckets_mem_of_ne bs _ it _ g0 hg0 hkey⟩
    · have hjeq : j = it := by simpa using hjit
      subst hjeq
      by_cases hex : ∃ g0, (dedupKey j, g0) ∈ bs
      · obtain ⟨g0, hg0⟩ := hex
        exact ⟨g0 ++ [j], hself.1 g0 hg0⟩
      · refine ⟨[j], hself.2 ?_⟩
        intro g0 hg0
        exact hex ⟨g0, hg0⟩
  · rw [addToBuckets_keys]
    by_cases hmem : dedupKey it ∈ bs.map Prod.fst
    · rwa [if_pos hmem]
    · rw [if_neg hmem]
      rw [List.nodup_append]
      exact ⟨h5, List.nodup_singleton _, by simpa using hmem⟩
  · calc (addToBuckets bs (dedupKey it) it).length
        ≤ bs.length + 1 := addToBuckets_length_le _ _ _
      _ ≤ p.length + 1 := Nat.succ_le_succ h6
      _ = (p ++ [it]).length := by simp

theorem buildBuckets_inv (items : List RawItem) : BucketsInv items (buildBuckets items) := by
  induction items using List.reverseRecOn with
  | nil =>
    refine ⟨?_, ?_, ?_, ?_, ?_, ?_⟩
    · intro k g hkg
      cases hkg
    · intro k g hkg
      cases hkg
    · intro k g hkg
      cases hkg
    · intro j hj
      cases hj
    · exact List.nodup_nil
    · exact Nat.le_refl 0
  | append_singleton l a ih =>
    have heq : buildBuckets (l ++ [a]) = addToBuckets (buildBuckets l) (dedupKey a) a := by
      simp [buildBuckets, List.foldl_append]
    rw [heq]
    exact bucketsInv_step l _ a ih

theorem orderedDeduped_perm (items : List RawItem) (sort : String) :
    (orderedDeduped items sort).Perm (dedupedOf items) := by
  unfold orderedDeduped
  split_ifs
  · exact List.perm_insertionSort pubGe _
  · exact List.Perm.refl _

theorem pick_latest_pair (i1 i2 : RawItem)
    (h : strLe (pubDateStr i2) (pubDateStr i1) = false) :
    _pick_latest [i1, i2] = i2 := by
  have hng : ¬ pubGe i1 i2 := by simp [pubGe, h]
  simp [_pick_latest, List.insertionSort, List.orderedInsert, hng]

/-- C10: every deduplicated news item is one of the raw input items enriched with
the convenience fields, the output is never longer than the input, and no two
output items share a deduplication key. -/
theorem search_dedup_invariants (items : List RawItem) (sort : String) :
    (∀ o ∈ search_dedup items sort, ∃ it ∈ items, o = withUIFields it)
  ∧ (search_dedup items sort).length ≤ items.length
  ∧ ((search_dedup items sort).map (fun o => dedupKey o.item)).Nodup := by
  obtain ⟨h1, h2, h3, h4, h5, h6⟩ := buildBuckets_inv items
  by_cases hemp : items.isEmpty
  · rw [search_dedup, if_pos hemp]
    exact ⟨fun o ho => absurd ho (List.not_mem_nil o), by simp, List.nodup_nil⟩
  · rw [search_dedup, if_neg hemp]
    refine ⟨?_, ?_, ?_⟩
    · intro o ho
      obtain ⟨x, hx, rfl⟩ := List.mem_map.mp ho
      have hx' : x ∈ dedupedOf items := (orderedDeduped_perm items sort).mem_iff.mp hx
      obtain ⟨kg, hkg, hxeq⟩ := List.mem_map.mp hx'
      obtain ⟨k, g⟩ := kg
      have hgne : g ≠ [] := h1 k g hkg
      have hxg : x ∈ g := hxeq ▸ pick_latest_mem g hgne
      exact ⟨x, (h2 k g hkg x hxg).1, rfl⟩
    · rw [List.length_map, (orderedDeduped_perm items sort).length_eq, dedupedOf,
          List.length_map]
      exact h6
    · have hmapmap :
          ((orderedDeduped items sort).map withUIFields).map (fun o => dedupKey o.item)
            = (orderedDeduped items sort).map (fun x => dedupKey x) := by
        rw [List.map_map]
        rfl
      rw [hmapmap]
      have hperm2 : ((orderedDeduped items sort).map (fun x => dedupKey x)).Perm
          ((dedupedOf items).map (fun x => dedupKey x)) :=
        (orderedDeduped_perm items sort).map _
      have hdk : (dedupedOf items).map (fun x => dedupKey x)
          = (buildBuckets items).map Prod.fst := by
        rw [dedupedOf, List.map_map]
        apply List.map_congr_left
        intro kg hkg
        obtain ⟨k, g⟩ := kg
        have hgne : g ≠ [] := h1 k g hkg
        exact (h2 k g hkg _ (pick_latest_mem g hgne)).2
      rw [hperm2.nodup_iff, hdk]
      exact h5

/-- C7: deduplication groups the raw items by canonical URL when one can be
derived (else by normalized title), and each surviving item is a raw input item
whose raw publication-date string is lexicographically greatest within its group
(a plain string compare); in particular two items with the same deduplication key
and strictly ordered date strings collapse to the one with the later string. -/
theorem search_dedup_latest_wins (items : List RawItem) (sort : String)
    (i1 i2 : RawItem) :
    (∀ o ∈ search_dedup items sort,
      ∃ it ∈ items, o = withUIFields it ∧
        ∀ j ∈ items, dedupKey j = dedupKey it →
          strLe (pubDateStr j) (pubDateStr it) = true)
  ∧ (dedupKey i1 = dedupKey i2 → strLt (pubDateStr i1) (pubDateStr i2) = true →
      search_dedup [i1, i2] sort = [withUIFields i2]) := by
  constructor
  · obtain ⟨h1, h2, h3, h4, h5, h6⟩ := buildBuckets_inv items
    intro o ho
    by_cases hemp : items.isEmpty
    · rw [search_dedup, if_pos hemp] at ho
      cases ho
    · rw [search_dedup, if_neg hemp] at ho
      obtain ⟨x, hx, rfl⟩ := List.mem_map.mp ho
      have hx' : x ∈ dedupedOf items := (orderedDeduped_perm items sort).mem_iff.mp hx
      obtain ⟨kg, hkg, hxeq⟩ := List.mem_map.mp hx'
      obtain ⟨k, g⟩ := kg
      have hgne : g ≠ [] := h1 k g hkg
      have hxg : x ∈ g := hxeq ▸ pick_latest_mem g hgne
      have hkx : dedupKey x = k := (h2 k g hkg x hxg).2
      refine ⟨x, (h2 k g hkg x hxg).1, rfl, ?_⟩
      intro j hj hjk
      have hjg : j ∈ g := h3 k g hkg j hj (by rw [hjk, hkx])
      have hge := pick_latest_ge g j hjg
      rw [hxeq] at hge
      exact hge
  · intro hk hlt
    have hle : strLe (pubDateStr i2) (pubDateStr i1) = false := by
      rw [strLt, Bool.not_eq_true'] at hlt
      exact hlt
    have hpick : _pick_latest [i1, i2] = i2 := pick_latest_pair i1 i2 hle
    have hbb : buildBuckets [i1, i2] = [(dedupKey i1, [i1, i2])] := by
      simp [buildBuckets, addToBuckets, ← hk]
    have hded : dedupedOf [i1, i2] = [i2] := by
      rw [dedupedOf, hbb]
      simp [hpick]
    have hord : orderedDeduped [i1, i2] sort = [i2] := by
      rw [orderedDeduped, hded]
      split_ifs
      · rfl
      · rfl
    rw [search_dedup, if_neg (by simp), hord]
    rfl

theorem search_dedup_latest_wins_witness :
    search_dedup
        [⟨some "기사 A", some "https://m.example.com/news/1?ref=x", none, none,
            some "Mon, 01 Jan 2024 09:00:00 +0900"⟩,
         ⟨some "기사 B", none, some "https://example.com/news/1#top", none,
            some "Tue, 02 Jan 2024 09:00:00 +0900"⟩] "sim"
      = [withUIFields ⟨some "기사 B", none, some "https://example.com/news/1#top", none,
            some "Tue, 02 Jan 2024 09:00:00 +0900"⟩]
  ∧ ∃ it ∈ [(⟨some "기사 A", some "https://m.example.com/news/1?ref=x", none, none,
            some "Mon, 01 Jan 2024 09:00:00 +0900"⟩ : RawItem),
            ⟨some "기사 B", none, some "https://example.com/news/1#top", none,
            some "Tue, 02 Jan 2024 09:00:00 +0900"⟩],
      withUIFields ⟨some "기사 B", none, some "https://example.com/news/1#top", none,
          some "Tue, 02 Jan 2024 09:00:00 +0900"⟩ = withUIFields it ∧
      ∀ j ∈ [(⟨some "기사 A", some "https://m.example.com/news/1?ref=x", none, none,
            some "Mon, 01 Jan 2024 09:00:00 +0900"⟩ : RawItem),
            ⟨some "기사 B", none, some "https://example.com/news/1#top", none,
            some "Tue, 02 Jan 2024 09:00:00 +0900"⟩],
        dedupKey j = dedupKey it → strLe (pubDateStr j) (pubDateStr it) = true := by
  obtain ⟨h1, h2⟩ := search_dedup_latest_wins
    [⟨some "기사 A", some "https://m.example.com/news/1?ref=x", none, none,
        some "Mon, 01 Jan 2024 09:00:00 +0900"⟩,
     ⟨some "기사 B", none, some "https://example.com/news/1#top", none,
        some "Tue, 02 Jan 2024 09:00:00 +0900"⟩] "sim"
    ⟨some "기사 A", some "https://m.example.com/news/1?ref=x", none, none,
        some "Mon, 01 Jan 2024 09:00:00 +0900"⟩
    ⟨some "기사 B", none, some "https://example.com/news/1#top", none,
        some "Tue, 02 Jan 2024 09:00:00 +0900"⟩
  have heq := h2 (by decide) (by decide)
  refine ⟨heq, h1 _ ?_⟩
  rw [heq]
  exact List.mem_singleton_self _

theorem search_dedup_invariants_witness :
    (∃ it ∈ [(⟨some "뉴스 C", some "https://news.example.com/a/2?x=1", none,
            some "<b>요약</b> 내용", some "Wed, 03 Jan 2024 10:00:00 +0900"⟩ : RawItem),
            ⟨some "다른 뉴스 D", none, none, none,
            some "Thu, 04 Jan 2024 10:00:00 +0900"⟩],
      withUIFields ⟨some "뉴스 C", some "https://news.example.com/a/2?x=1", none,
          some "<b>요약</b> 내용", some "Wed, 03 Jan 2024 10:00:00 +0900"⟩
        = withUIFields it)
  ∧ (search_dedup
        [⟨some "뉴스 C", some "https://news.example.com/a/2?x=1", none,
            some "<b>요약</b> 내용", some "Wed, 03 Jan 2024 10:00:00 +0900"⟩,
         ⟨some "다른 뉴스 D", none, none, none,
            some "Thu, 04 Jan 2024 10:00:00 +0900"⟩] "sim").length ≤ 2
  ∧ ((search_dedup
        [⟨some "뉴스 C", some "https://news.example.com/a/2?x=1", none,
            some "<b>요약</b> 내용", some "Wed, 03 Jan 2024 10:00:00 +0900"⟩,
         ⟨some "다른 뉴스 D", none, none, none,
            some "Thu, 04 Jan 2024 10:00:00 +0900"⟩] "sim").map
      (fun o => dedupKey o.item)).Nodup := by
  obtain ⟨h1, h2, h3⟩ := search_dedup_invariants
    [⟨some "뉴스 C", some "https://news.example.com/a/2?x=1", none,
        some "<b>요약</b> 내용", some "Wed, 03 Jan 2024 10:00:00 +0900"⟩,
     ⟨some "다른 뉴스 D", none, none, none,
        some "Thu, 04 Jan 2024 10:00:00 +0900"⟩] "sim"
  exact ⟨h1 _ (by decide), h2, h3⟩
